import Mathlib

/-!
Verification of the rs-json-parser repository (src/main.rs), a recursive-descent
JSON parser built on winnow combinators over a string cursor.

Shallow embedding conventions:
- the Rust cursor `&mut &str` becomes explicit state passing: a parser of
  result type T is a function `List Char → Option (T × List Char)` returning
  the parsed value and the remaining input on success, `none` on failure
  (winnow's backtrack errors); alternation passes the original input to the
  next alternative, which models winnow's cursor-restoring `alt`;
- `f64` values are modelled as exact rationals (ℚ): every number literal the
  grammar accepts denotes an exact rational, and every arithmetic step of the
  source (`num + frac / 10^len`, `x * 10.powi(z)`) is exact in ℚ;
- the `HashMap` accumulated by winnow's `separated` is modelled as an
  association list built by insert-with-overwrite in source order, which
  realises the same key-value mapping (last write wins);
- the mutual recursion of `parse_value` / `parse_array` / `parse_object` is
  made structural on an explicit fuel argument; the entry point `parse_json`
  supplies fuel `4 * length + 4`, an upper bound on the recursion depth of
  the source functions on that input (each unit of nesting or iteration
  consumes at least one input character and at most 4 fuel).
-/

/-- The `JsonValue` enum of src/main.rs.  Rust `String` payloads are `List Char`,
`f64` is ℚ, and the `HashMap<String, JsonValue>` payload is the association
list the insert sequence of the parse builds (unique keys, last write wins). -/
inductive JsonValue where
  | String : List Char → JsonValue
  | Number : ℚ → JsonValue
  | Boolean : Bool → JsonValue
  | Null : JsonValue
  | Array : List JsonValue → JsonValue
  | Object : List (List Char × JsonValue) → JsonValue

attribute [local semireducible] Rat.mul Rat.inv Rat.add Rat.sub

/-- A winnow parser `FnMut(&mut &str) -> PResult<T>`: it either consumes a
prefix of the input and returns the result with the rest, or fails. -/
abbrev Parser (α : Type) := List Char → Option (α × List Char)

/-- A literal token parser (winnow's `&str` as parser): matches the exact
character sequence `t` at the head of the input. -/
def lit : List Char → Parser Unit
  | [], s => some ((), s)
  | _ :: _, [] => none
  | c :: cs, d :: ds => if c = d then lit cs ds else none

/-- Model of winnow `multispace0`: consume the longest prefix of whitespace
(space, tab, carriage return, newline — exactly `Char.isWhitespace`). -/
def multispace0 : List Char → List Char
  | [] => []
  | c :: cs => if c.isWhitespace then multispace0 cs else c :: cs

/-- Model of winnow `digit1`: the longest nonempty prefix of decimal digits. -/
def digit1 : Parser (List Char) := fun s =>
  match s.takeWhile Char.isDigit with
  | [] => none
  | ds => some (ds, s.dropWhile Char.isDigit)

/-- Model of winnow `take_until(0.., c)`: the characters strictly before the first
occurrence of `c` (which is not consumed); fails when `c` does not occur. -/
def takeUntil (q : Char) : Parser (List Char)
  | [] => none
  | c :: cs =>
    if c = q then some ([], c :: cs)
    else
      match takeUntil q cs with
      | none => none
      | some (b, r) => some (c :: b, r)

/-- The numeric value of a decimal digit string (the exact value that
`digits.parse::<f64>()` denotes for the digit-only strings the grammar
produces). -/
def digitsToNat (ds : List Char) : Nat :=
  ds.foldl (fun a c => 10 * a + (c.toNat - 48)) 0

/-- Model of `delimited(multispace0, tok, multispace0)` for a one-character token, the
shape of `comma_with_space`, `colon_with_space`, `sep_left`, `sep_right` in
`parse_array` / `parse_object`. -/
def tok_ws (c : Char) : Parser Unit := fun s =>
  match lit [c] (multispace0 s) with
  | none => none
  | some (_, s1) => some ((), multispace0 s1)

/-- Rust `fn parse_null` (src/main.rs:53): match the literal `"null"`. -/
def parse_null : Parser Unit := fun s => lit ['n', 'u', 'l', 'l'] s

/-- Rust `fn parse_string` (src/main.rs:57): `delimited('"', take_until(0.., '"'), '"')`.
No escape processing: the body is everything before the next quote. -/
def parse_string : Parser (List Char) := fun s =>
  match lit ['"'] s with
  | none => none
  | some (_, s1) =>
    match takeUntil '"' s1 with
    | none => none
    | some (b, s2) =>
      match lit ['"'] s2 with
      | none => none
      | some (_, s3) => some (b, s3)

/-- Rust `fn parse_number` (src/main.rs:62): optional `-`, digits, then optionally
`.` and digits; the fraction digits read as an integer are divided by
`10 ^ length` and added before the sign is applied. -/
def parse_number : Parser ℚ := fun s =>
  let signed : Bool × List Char :=
    match lit ['-'] s with
    | some (_, r) => (true, r)
    | none => (false, s)
  match digit1 signed.2 with
  | none => none
  | some (ds, s1) =>
    let num : ℚ := (digitsToNat ds : ℚ)
    match lit ['.'] s1 with
    | some (_, s2) =>
      match digit1 s2 with
      | none => none
      | some (fs, s3) =>
        let fraction_value : ℚ := (digitsToNat fs : ℚ) / 10 ^ fs.length
        let v := num + fraction_value
        some (if signed.1 then -v else v, s3)
    | none => some (if signed.1 then -num else num, s1)

/-- Rust `fn parse_boolean` (src/main.rs:80): `alt(("true", "false")).parse_to()`. -/
def parse_boolean : Parser Bool := fun s =>
  match lit ['t', 'r', 'u', 'e'] s with
  | some (_, r) => some (true, r)
  | none =>
    match lit ['f', 'a', 'l', 's', 'e'] s with
    | some (_, r) => some (false, r)
    | none => none

/-- Rust `fn parse_integer` (src/main.rs:119): optional `+` or `-` sign
(via `one_of`), then digits; `+` and absence of a sign give the magnitude,
`-` negates it. -/
def parse_integer : Parser ℤ := fun s =>
  let signed : Option Char × List Char :=
    match s with
    | c :: r => if c = '+' ∨ c = '-' then (some c, r) else (none, s)
    | [] => (none, s)
  match digit1 signed.2 with
  | none => none
  | some (ds, s1) =>
    let n : ℤ := (digitsToNat ds : ℤ)
    match signed.1 with
    | some '+' => some (n, s1)
    | some '-' => some (-n, s1)
    | _ => some (n, s1)

/-- Model of `10_f64.powi(z)` (src/main.rs:135) over ℚ: an exact integer power of 10. -/
def powi10 (z : ℤ) : ℚ :=
  if 0 ≤ z then (10 : ℚ) ^ z.toNat else ((10 : ℚ) ^ (-z).toNat)⁻¹

/-- Rust `fn parse_scientific_notation` (src/main.rs:130):
`seq!(parse_number, "e", parse_integer)`, result `x * 10.powi(z)`. -/
def parse_scientific_notation : Parser ℚ := fun s =>
  match parse_number s with
  | none => none
  | some (x, s1) =>
    match lit ['e'] s1 with
    | none => none
    | some (_, s2) =>
      match parse_integer s2 with
      | none => none
      | some (z, s3) => some (x * powi10 z, s3)

/-- Insertion into the modelled `HashMap<String, JsonValue>`: overwrite the
value when the key is present, append the pair otherwise. -/
def insertKV : List (List Char × JsonValue) → List Char → JsonValue →
    List (List Char × JsonValue)
  | [], k, v => [(k, v)]
  | (k', v') :: rest, k, v =>
    if k' = k then (k, v) :: rest else (k', v') :: insertKV rest k v

/-- The mapping the winnow `separated` accumulator builds from the key-value
pairs in source order: one `HashMap::insert` per parsed pair. -/
def buildMap (ps : List (List Char × JsonValue)) : List (List Char × JsonValue) :=
  ps.foldl (fun m p => insertKV m p.1 p.2) []

/-- Model of `HashMap::get`: the value stored at a key, if any. -/
def lookupKV (m : List (List Char × JsonValue)) (k : List Char) : Option JsonValue :=
  match m with
  | [] => none
  | (k', v) :: rest => if k' = k then some v else lookupKV rest k

mutual

/-- Rust `fn parse_value` (src/main.rs:107): ordered alternation
null, string, scientific number, number, boolean, array, object; the first
alternative that succeeds wins, and each alternative is tried from the
original cursor position (winnow `alt` backtracking).  Fuel makes the
mutual recursion with the container parsers structural. -/
def parse_value : Nat → Parser JsonValue
  | 0 => fun _ => none
  | Nat.succ f => fun s =>
    match parse_null s with
    | some (_, r) => some (JsonValue.Null, r)
    | none =>
      match parse_string s with
      | some (b, r) => some (JsonValue.String b, r)
      | none =>
        match parse_scientific_notation s with
        | some (q, r) => some (JsonValue.Number q, r)
        | none =>
          match parse_number s with
          | some (q, r) => some (JsonValue.Number q, r)
          | none =>
            match parse_boolean s with
            | some (b, r) => some (JsonValue.Boolean b, r)
            | none =>
              match parse_array f s with
              | some (vs, r) => some (JsonValue.Array vs, r)
              | none =>
                match parse_object f s with
                | some (ps, r) => some (JsonValue.Object ps, r)
                | none => none

/-- Rust `fn parse_array` (src/main.rs:84):
`delimited(sep_left, separated(0.., parse_value, comma_with_space), sep_right)`
with `sep_left`/`sep_right` the bracket tokens wrapped in `multispace0`. -/
def parse_array : Nat → Parser (List JsonValue)
  | 0 => fun _ => none
  | Nat.succ f => fun s =>
    match tok_ws '[' s with
    | none => none
    | some (_, s1) =>
      match arrayElems f s1 with
      | none => none
      | some (vs, s2) =>
        match tok_ws ']' s2 with
        | none => none
        | some (_, s3) => some (vs, s3)

/-- Model of winnow `separated(0.., parse_value, comma_with_space)`: zero elements when
the first `parse_value` fails (cursor untouched), else the first element
followed by the separator loop. -/
def arrayElems : Nat → Parser (List JsonValue)
  | 0 => fun _ => none
  | Nat.succ f => fun s =>
    match parse_value f s with
    | none => some ([], s)
    | some (v, s1) =>
      match arrayTail f s1 with
      | none => none
      | some (vs, r) => some (v :: vs, r)

/-- The loop of winnow `separated`: try separator then element; when either
fails, stop and restore the cursor to before the separator. -/
def arrayTail : Nat → Parser (List JsonValue)
  | 0 => fun _ => none
  | Nat.succ f => fun s =>
    match tok_ws ',' s with
    | none => some ([], s)
    | some (_, s1) =>
      match parse_value f s1 with
      | none => some ([], s)
      | some (v, s2) =>
        match arrayTail f s2 with
        | none => none
        | some (vs, r) => some (v :: vs, r)

/-- Rust `fn parse_object` (src/main.rs:96): braces wrapped in `multispace0` around
`separated(0.., separated_pair(parse_string, colon_with_space, parse_value),
comma_with_space)`, accumulated into a `HashMap` (modelled by `buildMap`). -/
def parse_object : Nat → Parser (List (List Char × JsonValue))
  | 0 => fun _ => none
  | Nat.succ f => fun s =>
    match tok_ws '{' s with
    | none => none
    | some (_, s1) =>
      match objElems f s1 with
      | none => none
      | some (ps, s2) =>
        match tok_ws '}' s2 with
        | none => none
        | some (_, s3) => some (buildMap ps, s3)

/-- Model of winnow `separated(0.., parse_kv_pair, comma_with_space)` for objects:
the pair list in source order. -/
def objElems : Nat → Parser (List (List Char × JsonValue))
  | 0 => fun _ => none
  | Nat.succ f => fun s =>
    match parse_kv f s with
    | none => some ([], s)
    | some (p, s1) =>
      match objTail f s1 with
      | none => none
      | some (ps, r) => some (p :: ps, r)

/-- The separator loop of the object member list. -/
def objTail : Nat → Parser (List (List Char × JsonValue))
  | 0 => fun _ => none
  | Nat.succ f => fun s =>
    match tok_ws ',' s with
    | none => some ([], s)
    | some (_, s1) =>
      match parse_kv f s1 with
      | none => some ([], s)
      | some (p, s2) =>
        match objTail f s2 with
        | none => none
        | some (ps, r) => some (p :: ps, r)

/-- Model of `separated_pair(parse_string, colon_with_space, parse_value)`
(src/main.rs:102): a string key, a colon token, and a value. -/
def parse_kv : Nat → Parser (List Char × JsonValue)
  | 0 => fun _ => none
  | Nat.succ f => fun s =>
    match parse_string s with
    | none => none
    | some (k, s1) =>
      match tok_ws ':' s1 with
      | none => none
      | some (_, s2) =>
        match parse_value f s2 with
        | none => none
        | some (v, s3) => some ((k, v), s3)

end

/-- Rust `fn parse_json` (src/main.rs:48): run `parse_value` on the whole input and
keep the parsed value, discarding the rest of the cursor.  The fuel
`4 * length + 4` dominates the recursion depth of the source functions on
the given input (each recursive descent first consumes a character). -/
def parse_json (s : List Char) : Option JsonValue :=
  (parse_value (4 * s.length + 4) s).map Prod.fst

/-- Predicate: `multispace0` consumes nothing when the input does not start with
whitespace (in particular when it is empty). -/
def stopsWs : List Char → Bool
  | [] => true
  | c :: _ => !c.isWhitespace

/-- Predicate: `digit1` stops here: empty input or a non-digit first character. -/
def stopsDigit : List Char → Bool
  | [] => true
  | c :: _ => !c.isDigit

/-- The source text of the second and later elements of an array literal in
the claimed grammar: each entry `(wa, wb, e, v)` contributes whitespace, a
comma, whitespace, and the element text `e` (whose value is `v`). -/
def arrTailStr (entries : List (List Char × List Char × List Char × JsonValue)) :
    List Char :=
  match entries with
  | [] => []
  | (wa, wb, e, _) :: rest => wa ++ ',' :: wb ++ e ++ arrTailStr rest

/-- Hypotheses for the general array theorem: every entry is whitespace,
comma, whitespace, then an element text that `parse_value` (at fuel `f`)
parses to the entry value, consuming exactly the element text. -/
def ArrTailOk (f : Nat) (suffix : List Char) :
    List (List Char × List Char × List Char × JsonValue) → Prop
  | [] => True
  | (wa, wb, e, v) :: rest =>
    wa.all Char.isWhitespace = true ∧ wb.all Char.isWhitespace = true ∧
    stopsWs (e ++ arrTailStr rest ++ suffix) = true ∧
    parse_value f (e ++ arrTailStr rest ++ suffix) =
      some (v, arrTailStr rest ++ suffix) ∧
    ArrTailOk f suffix rest

example : parse_number ("123.456789".toList) = some ((123456789 : ℚ) / 1000000, []) := by
  decide

example : parse_number ("-0.5".toList) = some (-((1 : ℚ) / 2), []) := by decide

example : parse_scientific_notation ("1.1e-30".toList) =
    some ((11 : ℚ) / 10 ^ 31, []) := by decide

example : parse_scientific_notation ("1.1e+1".toList) = some ((11 : ℚ), []) := by
  decide

example : parse_json ("nulla".toList) = some JsonValue.Null := rfl

example : parse_json ("[1, 2, 3]".toList) =
    some (JsonValue.Array
      [JsonValue.Number 1, JsonValue.Number 2, JsonValue.Number 3]) := rfl

example : parse_json ("[]".toList) = some (JsonValue.Array []) := rfl

example : parse_json ("nul".toList) = none := rfl

example : parse_json ("[1,2".toList) = none := rfl

example : parse_json (['{', '"', 'a', '"', ':', '}']) = none := rfl

example : parse_json (['{', '"', 'k', '"', ':', ' ', '1', '}']) =
    some (JsonValue.Object [(['k'], JsonValue.Number 1)]) := rfl

/-! ### Helper lemmas about the token-level parsers -/

theorem lit_append (t r : List Char) : lit t (t ++ r) = some ((), r) := by
  induction t with
  | nil => rfl
  | cons c cs ih => simp [lit, ih]

theorem lit_some {t s r : List Char} {u : Unit} (h : lit t s = some (u, r)) :
    s = t ++ r := by
  induction t generalizing s with
  | nil =>
    simp only [lit, Option.some.injEq, Prod.mk.injEq] at h
    simp [h.2]
  | cons c cs ih =>
    cases s with
    | nil => simp [lit] at h
    | cons d ds =>
      simp only [lit] at h
      split at h
      · next heq => subst heq; simpa using ih h
      · exact absurd h (by simp)

theorem lit_single_ne {c d : Char} (h : c ≠ d) (t : List Char) :
    lit [c] (d :: t) = none := by
  simp [lit, h]

theorem multispace0_stops {s : List Char} (h : stopsWs s = true) :
    multispace0 s = s := by
  cases s with
  | nil => rfl
  | cons c cs => simp only [stopsWs, Bool.not_eq_true'] at h; simp [multispace0, h]

theorem multispace0_append {w rest : List Char}
    (hw : w.all Char.isWhitespace = true) (hr : stopsWs rest = true) :
    multispace0 (w ++ rest) = rest := by
  induction w with
  | nil => simpa using multispace0_stops hr
  | cons c cs ih =>
    simp only [List.all_cons, Bool.and_eq_true] at hw
    simpa [multispace0, hw.1] using ih hw.2

theorem stopsWs_multispace0 (s : List Char) : stopsWs (multispace0 s) = true := by
  induction s with
  | nil => rfl
  | cons c cs ih =>
    by_cases hc : c.isWhitespace
    · simpa [multispace0, hc] using ih
    · simp [multispace0, hc, stopsWs]

theorem multispace0_split (s : List Char) :
    ∃ w, s = w ++ multispace0 s ∧ w.all Char.isWhitespace = true := by
  induction s with
  | nil => exact ⟨[], rfl, rfl⟩
  | cons c cs ih =>
    by_cases hc : c.isWhitespace
    · obtain ⟨w, hw1, hw2⟩ := ih
      exact ⟨c :: w, by simp [multispace0, hc, ← hw1], by simp [hc, hw2]⟩
    · exact ⟨[], by simp [multispace0, hc], rfl⟩

theorem digit1_append {ds rest : List Char} (hne : ds ≠ [])
    (hd : ds.all Char.isDigit = true) (hr : stopsDigit rest = true) :
    digit1 (ds ++ rest) = some (ds, rest) := by
  have htake : ∀ t : List Char, t.all Char.isDigit = true →
      (t ++ rest).takeWhile Char.isDigit = t ∧
      (t ++ rest).dropWhile Char.isDigit = rest := by
    intro t ht
    induction t with
    | nil =>
      cases rest with
      | nil => simp
      | cons c cs =>
        simp only [stopsDigit, Bool.not_eq_true'] at hr
        simp [List.takeWhile, List.dropWhile, hr]
    | cons c cs ih =>
      simp only [List.all_cons, Bool.and_eq_true] at ht
      have := ih ht.2
      simp [List.takeWhile, List.dropWhile, ht.1, this.1, this.2]
  obtain ⟨h1, h2⟩ := htake ds hd
  cases ds with
  | nil => exact absurd rfl hne
  | cons c cs =>
    simp only [digit1]
    rw [h1, h2]

theorem takeUntil_append {q : Char} {body r : List Char} (h : q ∉ body) :
    takeUntil q (body ++ q :: r) = some (body, q :: r) := by
  induction body with
  | nil => simp [takeUntil]
  | cons c cs ih =>
    simp only [List.mem_cons, not_or] at h
    have hc : ¬c = q := fun hh => h.1 hh.symm
    simp [takeUntil, hc, ih h.2]

theorem tok_ws_append {c : Char} {w1 w2 rest : List Char}
    (h1 : w1.all Char.isWhitespace = true) (h2 : w2.all Char.isWhitespace = true)
    (hc : c.isWhitespace = false) (hr : stopsWs rest = true) :
    tok_ws c (w1 ++ c :: w2 ++ rest) = some ((), rest) := by
  have hm1 : multispace0 (w1 ++ c :: w2 ++ rest) = c :: (w2 ++ rest) := by
    have : stopsWs (c :: (w2 ++ rest)) = true := by simp [stopsWs, hc]
    simpa using multispace0_append h1 this
  simp only [tok_ws, hm1, lit]
  simp [multispace0_append h2 hr]

theorem tok_ws_head {c : Char} {s r : List Char} {u : Unit}
    (h : tok_ws c s = some (u, r)) : ∃ t, multispace0 s = c :: t := by
  simp only [tok_ws] at h
  cases hl : lit [c] (multispace0 s) with
  | none => rw [hl] at h; simp at h
  | some p => exact ⟨p.2, by simpa using lit_some (by rw [hl])⟩

theorem tok_ws_ne {c c' : Char} {s : List Char} {x : Unit × List Char}
    (hne : c' ≠ c) (h : tok_ws c s = some x) : tok_ws c' s = none := by
  obtain ⟨t, ht⟩ := tok_ws_head h
  simp [tok_ws, ht, lit_single_ne hne]

/-! ### Failure propagation through the container parsers -/

theorem parse_array_fail {f : Nat} {s : List Char} (h : tok_ws '[' s = none) :
    parse_array f s = none := by
  cases f <;> simp [parse_array, h]

theorem parse_object_fail {f : Nat} {s : List Char} (h : tok_ws '{' s = none) :
    parse_object f s = none := by
  cases f <;> simp [parse_object, h]

theorem parse_array_some_tok {f : Nat} {s : List Char} {x : List JsonValue × List Char}
    (h : parse_array f s = some x) : ∃ q, tok_ws '[' s = some q := by
  cases f with
  | zero => simp [parse_array] at h
  | succ f =>
    simp only [parse_array] at h
    cases ht : tok_ws '[' s with
    | none => rw [ht] at h; simp at h
    | some q => exact ⟨q, rfl⟩

theorem parse_object_some_tok {f : Nat} {s : List Char}
    {x : List (List Char × JsonValue) × List Char}
    (h : parse_object f s = some x) : ∃ q, tok_ws '{' s = some q := by
  cases f with
  | zero => simp [parse_object] at h
  | succ f =>
    simp only [parse_object] at h
    cases ht : tok_ws '{' s with
    | none => rw [ht] at h; simp at h
    | some q => exact ⟨q, rfl⟩

/-- No grammar alternative starts with a closing bracket, so `parse_value`
fails there at every fuel. -/
theorem parse_value_fail_rbracket (f : Nat) (r : List Char) :
    parse_value f (']' :: r) = none := by
  cases f with
  | zero => rfl
  | succ f =>
    have harr : parse_array f (']' :: r) = none := parse_array_fail rfl
    have hobj : parse_object f (']' :: r) = none := parse_object_fail rfl
    have h1 : parse_null (']' :: r) = none := rfl
    have h2 : parse_string (']' :: r) = none := rfl
    have h3 : parse_scientific_notation (']' :: r) = none := rfl
    have h4 : parse_number (']' :: r) = none := rfl
    have h5 : parse_boolean (']' :: r) = none := rfl
    simp [parse_value, h1, h2, h3, h4, h5, harr, hobj]

/-- A key must be a string lexeme: `parse_kv` fails unless the member starts
with a quote, in particular at a closing brace. -/
theorem parse_kv_fail_rbrace (f : Nat) (r : List Char) :
    parse_kv f ('}' :: r) = none := by
  cases f with
  | zero => rfl
  | succ f =>
    have h1 : parse_string ('}' :: r) = none := rfl
    simp [parse_kv, h1]

theorem tok_ws_rest_stops {c : Char} {s r : List Char} {u : Unit}
    (h : tok_ws c s = some (u, r)) : stopsWs r = true := by
  simp only [tok_ws] at h
  cases hl : lit [c] (multispace0 s) with
  | none => rw [hl] at h; cases h
  | some p =>
    rw [hl] at h
    simp only [Option.some.injEq, Prod.mk.injEq] at h
    rw [← h.2]
    exact stopsWs_multispace0 _

/-! ### One-step introduction lemmas for the fuel-indexed parsers -/

theorem arrayTail_succ_stop {f : Nat} {s : List Char} (hc : tok_ws ',' s = none) :
    arrayTail (f + 1) s = some ([], s) := by
  simp only [arrayTail, hc]

theorem arrayTail_succ_cons {f : Nat} {s s1 s2 r : List Char} {u : Unit}
    {v : JsonValue} {vs : List JsonValue}
    (hc : tok_ws ',' s = some (u, s1)) (hv : parse_value f s1 = some (v, s2))
    (ht : arrayTail f s2 = some (vs, r)) : arrayTail (f + 1) s = some (v :: vs, r) := by
  simp only [arrayTail, hc, hv, ht]

theorem objTail_succ_stop {f : Nat} {s : List Char} (hc : tok_ws ',' s = none) :
    objTail (f + 1) s = some ([], s) := by
  simp only [objTail, hc]

theorem objTail_succ_cons {f : Nat} {s s1 s2 r : List Char} {u : Unit}
    {kv : List Char × JsonValue} {ps : List (List Char × JsonValue)}
    (hc : tok_ws ',' s = some (u, s1)) (hv : parse_kv f s1 = some (kv, s2))
    (ht : objTail f s2 = some (ps, r)) : objTail (f + 1) s = some (kv :: ps, r) := by
  simp only [objTail, hc, hv, ht]

theorem arrayElems_succ_nil {f : Nat} {s : List Char}
    (hv : parse_value f s = none) : arrayElems (f + 1) s = some ([], s) := by
  simp only [arrayElems, hv]

theorem arrayElems_succ_cons {f : Nat} {s s1 r : List Char} {v : JsonValue}
    {vs : List JsonValue} (hv : parse_value f s = some (v, s1))
    (ht : arrayTail f s1 = some (vs, r)) : arrayElems (f + 1) s = some (v :: vs, r) := by
  simp only [arrayElems, hv, ht]

theorem objElems_succ_nil {f : Nat} {s : List Char}
    (hv : parse_kv f s = none) : objElems (f + 1) s = some ([], s) := by
  simp only [objElems, hv]

theorem objElems_succ_cons {f : Nat} {s s1 r : List Char} {kv : List Char × JsonValue}
    {ps : List (List Char × JsonValue)} (hv : parse_kv f s = some (kv, s1))
    (ht : objTail f s1 = some (ps, r)) : objElems (f + 1) s = some (kv :: ps, r) := by
  simp only [objElems, hv, ht]

theorem parse_array_succ {f : Nat} {s s1 s2 s3 : List Char} {u1 u2 : Unit}
    {vs : List JsonValue} (h1 : tok_ws '[' s = some (u1, s1))
    (h2 : arrayElems f s1 = some (vs, s2)) (h3 : tok_ws ']' s2 = some (u2, s3)) :
    parse_array (f + 1) s = some (vs, s3) := by
  simp only [parse_array, h1, h2, h3]

theorem parse_object_succ {f : Nat} {s s1 s2 s3 : List Char} {u1 u2 : Unit}
    {ps : List (List Char × JsonValue)} (h1 : tok_ws '{' s = some (u1, s1))
    (h2 : objElems f s1 = some (ps, s2)) (h3 : tok_ws '}' s2 = some (u2, s3)) :
    parse_object (f + 1) s = some (buildMap ps, s3) := by
  simp only [parse_object, h1, h2, h3]

theorem parse_kv_succ {f : Nat} {s s1 s2 s3 : List Char} {u : Unit}
    {k : List Char} {v : JsonValue} (h1 : parse_string s = some (k, s1))
    (h2 : tok_ws ':' s1 = some (u, s2)) (h3 : parse_value f s2 = some (v, s3)) :
    parse_kv (f + 1) s = some ((k, v), s3) := by
  simp only [parse_kv, h1, h2, h3]

/-! ### Success is monotone in the fuel

More fuel never flips a successful parse to a different result, provided the
run is embedded in a parse that closes the bracket it is working under (the
side conditions on the element-list loops).  This lets general theorems be
stated with an existentially quantified fuel. -/

theorem fuel_mono : ∀ f : Nat,
    (∀ s x, parse_value f s = some x → parse_value (f + 1) s = some x) ∧
    (∀ s x, parse_array f s = some x → parse_array (f + 1) s = some x) ∧
    (∀ s vs r, stopsWs s = true → arrayElems f s = some (vs, r) →
      (tok_ws ']' r).isSome = true → arrayElems (f + 1) s = some (vs, r)) ∧
    (∀ s vs r, arrayTail f s = some (vs, r) →
      (tok_ws ']' r).isSome = true → arrayTail (f + 1) s = some (vs, r)) ∧
    (∀ s x, parse_object f s = some x → parse_object (f + 1) s = some x) ∧
    (∀ s ps r, stopsWs s = true → objElems f s = some (ps, r) →
      (tok_ws '}' r).isSome = true → objElems (f + 1) s = some (ps, r)) ∧
    (∀ s ps r, objTail f s = some (ps, r) →
      (tok_ws '}' r).isSome = true → objTail (f + 1) s = some (ps, r)) ∧
    (∀ s x, parse_kv f s = some x → parse_kv (f + 1) s = some x) := by
  intro f
  induction f with
  | zero =>
    refine ⟨?_, ?_, ?_, ?_, ?_, ?_, ?_, ?_⟩ <;> intro s
    · intro x h; simp [parse_value] at h
    · intro x h; simp [parse_array] at h
    · intro vs r _ h; simp [arrayElems] at h
    · intro vs r h; simp [arrayTail] at h
    · intro x h; simp [parse_object] at h
    · intro ps r _ h; simp [objElems] at h
    · intro ps r h; simp [objTail] at h
    · intro x h; simp [parse_kv] at h
  | succ f ih =>
    obtain ⟨ihv, iha, ihae, ihat, iho, ihoe, ihot, ihkv⟩ := ih
    refine ⟨?_, ?_, ?_, ?_, ?_, ?_, ?_, ?_⟩
    · -- parse_value
      intro s x h
      simp only [parse_value] at h ⊢
      cases h0 : parse_null s with
      | some p => obtain ⟨u, r⟩ := p; simp only [h0] at h ⊢; exact h
      | none =>
      simp only [h0] at h ⊢
      cases h1 : parse_string s with
      | some p => obtain ⟨b, r⟩ := p; simp only [h1] at h ⊢; exact h
      | none =>
      simp only [h1] at h ⊢
      cases h2 : parse_scientific_notation s with
      | some p => obtain ⟨q, r⟩ := p; simp only [h2] at h ⊢; exact h
      | none =>
      simp only [h2] at h ⊢
      cases h3 : parse_number s with
      | some p => obtain ⟨q, r⟩ := p; simp only [h3] at h ⊢; exact h
      | none =>
      simp only [h3] at h ⊢
      cases h4 : parse_boolean s with
      | some p => obtain ⟨b, r⟩ := p; simp only [h4] at h ⊢; exact h
      | none =>
      simp only [h4] at h ⊢
      cases h5 : parse_array f s with
      | some p =>
        have h5' := iha _ _ h5
        simp only [h5] at h
        simp only [h5']
        exact h
      | none =>
      simp only [h5] at h
      cases h6 : parse_object f s with
      | none => simp only [h6] at h; cases h
      | some p =>
        obtain ⟨q, hq⟩ := parse_object_some_tok h6
        have harr : parse_array (f + 1) s = none :=
          parse_array_fail (tok_ws_ne (by decide) hq)
        have h6' := iho _ _ h6
        simp only [h6] at h
        simp only [harr, h6']
        exact h
    · -- parse_array
      intro s x h
      simp only [parse_array] at h ⊢
      cases ht : tok_ws '[' s with
      | none => rw [ht] at h; cases h
      | some p =>
        obtain ⟨u, s1⟩ := p
        simp only [ht] at h ⊢
        cases he : arrayElems f s1 with
        | none => simp only [he] at h; cases h
        | some q =>
          obtain ⟨vs, s2⟩ := q
          simp only [he] at h
          cases ht2 : tok_ws ']' s2 with
          | none => simp only [ht2] at h; cases h
          | some p2 =>
            have he' := ihae _ _ _ (tok_ws_rest_stops ht) he (by simp [ht2])
            simp only [he', ht2] at h ⊢
            exact h
    · -- arrayElems
      intro s vs r hs h hz
      simp only [arrayElems] at h ⊢
      cases hv : parse_value f s with
      | none =>
        simp only [hv] at h
        simp only [Option.some.injEq, Prod.mk.injEq] at h
        obtain ⟨hvs, hr⟩ := h
        subst hvs
        subst hr
        obtain ⟨p, hp⟩ := Option.isSome_iff_exists.mp hz
        obtain ⟨t, ht⟩ := tok_ws_head hp
        rw [multispace0_stops hs] at ht
        subst ht
        simp only [parse_value_fail_rbracket]
      | some p =>
        obtain ⟨v, s1⟩ := p
        simp only [hv] at h
        cases htl : arrayTail f s1 with
        | none => simp only [htl] at h; cases h
        | some q =>
          obtain ⟨vs', r'⟩ := q
          simp only [htl] at h
          simp only [Option.some.injEq, Prod.mk.injEq] at h
          obtain ⟨hvs, hr⟩ := h
          subst hvs
          subst hr
          have hv' := ihv _ _ hv
          have htl' := ihat _ _ _ htl hz
          simp only [hv', htl']
    · -- arrayTail
      intro s vs r h hz
      simp only [arrayTail] at h
      cases hc : tok_ws ',' s with
      | none =>
        simp only [hc] at h
        simp only [Option.some.injEq, Prod.mk.injEq] at h
        obtain ⟨hvs, hr⟩ := h
        subst hvs
        subst hr
        exact arrayTail_succ_stop hc
      | some p =>
        obtain ⟨u, s1⟩ := p
        simp only [hc] at h
        cases hv : parse_value f s1 with
        | none =>
          simp only [hv] at h
          simp only [Option.some.injEq, Prod.mk.injEq] at h
          obtain ⟨hvs, hr⟩ := h
          subst hvs
          subst hr
          obtain ⟨p2, hp2⟩ := Option.isSome_iff_exists.mp hz
          have hcon := tok_ws_ne (show ',' ≠ ']' by decide) hp2
          rw [hcon] at hc
          cases hc
        | some q =>
          obtain ⟨v, s2⟩ := q
          simp only [hv] at h
          cases htl : arrayTail f s2 with
          | none => simp only [htl] at h; cases h
          | some q2 =>
            obtain ⟨vs', r'⟩ := q2
            simp only [htl] at h
            simp only [Option.some.injEq, Prod.mk.injEq] at h
            obtain ⟨hvs, hr⟩ := h
            subst hvs
            subst hr
            exact arrayTail_succ_cons hc (ihv _ _ hv) (ihat _ _ _ htl hz)
    · -- parse_object
      intro s x h
      simp only [parse_object] at h ⊢
      cases ht : tok_ws '{' s with
      | none => rw [ht] at h; cases h
      | some p =>
        obtain ⟨u, s1⟩ := p
        simp only [ht] at h ⊢
        cases he : objElems f s1 with
        | none => simp only [he] at h; cases h
        | some q =>
          obtain ⟨ps, s2⟩ := q
          simp only [he] at h
          cases ht2 : tok_ws '}' s2 with
          | none => simp only [ht2] at h; cases h
          | some p2 =>
            have he' := ihoe _ _ _ (tok_ws_rest_stops ht) he (by simp [ht2])
            simp only [he', ht2] at h ⊢
            exact h
    · -- objElems
      intro s ps r hs h hz
      simp only [objElems] at h ⊢
      cases hv : parse_kv f s with
      | none =>
        simp only [hv] at h
        simp only [Option.some.injEq, Prod.mk.injEq] at h
        obtain ⟨hps, hr⟩ := h
        subst hps
        subst hr
        obtain ⟨p, hp⟩ := Option.isSome_iff_exists.mp hz
        obtain ⟨t, ht⟩ := tok_ws_head hp
        rw [multispace0_stops hs] at ht
        subst ht
        simp only [parse_kv_fail_rbrace]
      | some p =>
        obtain ⟨kv, s1⟩ := p
        simp only [hv] at h
        cases htl : objTail f s1 with
        | none => simp only [htl] at h; cases h
        | some q =>
          obtain ⟨ps', r'⟩ := q
          simp only [htl] at h
          simp only [Option.some.injEq, Prod.mk.injEq] at h
          obtain ⟨hps, hr⟩ := h
          subst hps
          subst hr
          have hv' := ihkv _ _ hv
          have htl' := ihot _ _ _ htl hz
          simp only [hv', htl']
    · -- objTail
      intro s ps r h hz
      simp only [objTail] at h
      cases hc : tok_ws ',' s with
      | none =>
        simp only [hc] at h
        simp only [Option.some.injEq, Prod.mk.injEq] at h
        obtain ⟨hps, hr⟩ := h
        subst hps
        subst hr
        exact objTail_succ_stop hc
      | some p =>
        obtain ⟨u, s1⟩ := p
        simp only [hc] at h
        cases hv : parse_kv f s1 with
        | none =>
          simp only [hv] at h
          simp only [Option.some.injEq, Prod.mk.injEq] at h
          obtain ⟨hps, hr⟩ := h
          subst hps
          subst hr
          obtain ⟨p2, hp2⟩ := Option.isSome_iff_exists.mp hz
          have hcon := tok_ws_ne (show ',' ≠ '}' by decide) hp2
          rw [hcon] at hc
          cases hc
        | some q =>
          obtain ⟨kv, s2⟩ := q
          simp only [hv] at h
          cases htl : objTail f s2 with
          | none => simp only [htl] at h; cases h
          | some q2 =>
            obtain ⟨ps', r'⟩ := q2
            simp only [htl] at h
            simp only [Option.some.injEq, Prod.mk.injEq] at h
            obtain ⟨hps, hr⟩ := h
            subst hps
            subst hr
            exact objTail_succ_cons hc (ihkv _ _ hv) (ihot _ _ _ htl hz)
    · -- parse_kv
      intro s x h
      simp only [parse_kv] at h ⊢
      cases hk : parse_string s with
      | none => rw [hk] at h; cases h
      | some p =>
        obtain ⟨k, s1⟩ := p
        simp only [hk] at h ⊢
        cases hc : tok_ws ':' s1 with
        | none => simp only [hc] at h; cases h
        | some p2 =>
          obtain ⟨u, s2⟩ := p2
          simp only [hc] at h ⊢
          cases hv : parse_value f s2 with
          | none => simp only [hv] at h; cases h
          | some q =>
            obtain ⟨v, s3⟩ := q
            simp only [hv] at h
            have hv' := ihv _ _ hv
            simp only [hv']
            exact h

/-- Success of `parse_value` is preserved by any fuel increase. -/
theorem parse_value_mono_le {f g : Nat} {s : List Char} {x : JsonValue × List Char}
    (hle : f ≤ g) (h : parse_value f s = some x) : parse_value g s = some x := by
  induction g with
  | zero => cases Nat.le_zero.mp hle; exact h
  | succ g ihg =>
    rcases Nat.lt_or_ge f (g + 1) with hlt | hge
    · exact (fuel_mono g).1 _ _ (ihg (Nat.lt_succ_iff.mp hlt))
    · have : f = g + 1 := Nat.le_antisymm hle hge
      subst this
      exact h

/-- Success of `arrayTail` is preserved by any fuel increase, under the same
closing-bracket side condition as `fuel_mono`. -/
theorem arrayTail_mono_le {f g : Nat} {s r : List Char} {vs : List JsonValue}
    (hle : f ≤ g) (h : arrayTail f s = some (vs, r))
    (hz : (tok_ws ']' r).isSome = true) : arrayTail g s = some (vs, r) := by
  induction g with
  | zero => cases Nat.le_zero.mp hle; exact h
  | succ g ihg =>
    rcases Nat.lt_or_ge f (g + 1) with hlt | hge
    · exact (fuel_mono g).2.2.2.1 _ _ _ (ihg (Nat.lt_succ_iff.mp hlt)) hz
    · have : f = g + 1 := Nat.le_antisymm hle hge
      subst this
      exact h

/-- Success of `objTail` is preserved by any fuel increase, under the same
closing-brace side condition as `fuel_mono`. -/
theorem objTail_mono_le {f g : Nat} {s r : List Char}
    {ps : List (List Char × JsonValue)}
    (hle : f ≤ g) (h : objTail f s = some (ps, r))
    (hz : (tok_ws '}' r).isSome = true) : objTail g s = some (ps, r) := by
  induction g with
  | zero => cases Nat.le_zero.mp hle; exact h
  | succ g ihg =>
    rcases Nat.lt_or_ge f (g + 1) with hlt | hge
    · exact (fuel_mono g).2.2.2.2.2.2.1 _ _ _ (ihg (Nat.lt_succ_iff.mp hlt)) hz
    · have : f = g + 1 := Nat.le_antisymm hle hge
      subst this
      exact h

/-! ### Character facts used by the number lemmas -/

theorem ne_of_isDigit {c d : Char} (hd : d.isDigit = true) (hc : c.isDigit = false) :
    c ≠ d := by
  intro h
  subst h
  rw [hd] at hc
  cases hc

theorem powi10_zpow (z : ℤ) : powi10 z = (10 : ℚ) ^ z := by
  rcases z with n | n
  · simp [powi10, Int.toNat_ofNat]
  · have hneg : ¬(0 : ℤ) ≤ Int.negSucc n := by
      simp [Int.negSucc_eq]
      omega
    have ht : (-Int.negSucc n).toNat = n + 1 := by
      rw [Int.negSucc_eq, neg_neg]
      omega
    simp only [powi10, hneg, if_false, zpow_negSucc, ht]

/-! ### Claim C1: plain number literals -/

theorem parse_number_frac {neg : Bool} {ds fs : List Char}
    (hds : ds ≠ []) (hfs : fs ≠ [])
    (hd : ds.all Char.isDigit = true) (hf : fs.all Char.isDigit = true) :
    parse_number ((if neg then ['-'] else []) ++ ds ++ '.' :: fs) =
      some ((if neg then (-1 : ℚ) else 1) *
        ((digitsToNat ds : ℚ) + (digitsToNat fs : ℚ) / 10 ^ fs.length), []) := by
  have h2 : digit1 (ds ++ '.' :: fs) = some (ds, '.' :: fs) :=
    digit1_append hds hd rfl
  have h3 : lit ['.'] ('.' :: fs) = some ((), fs) := lit_append ['.'] fs
  have h4 : digit1 fs = some (fs, []) := by
    have := digit1_append hfs hf (show stopsDigit ([] : List Char) = true from rfl)
    simpa using this
  cases neg with
  | true =>
    have h1 : lit ['-'] ('-' :: (ds ++ '.' :: fs)) = some ((), ds ++ '.' :: fs) :=
      lit_append ['-'] (ds ++ '.' :: fs)
    simp [parse_number, h1, h2, h3, h4]
  | false =>
    obtain ⟨d, t, rfl⟩ : ∃ d t, ds = d :: t := by
      cases ds with
      | nil => exact absurd rfl hds
      | cons d t => exact ⟨d, t, rfl⟩
    have hdd : d.isDigit = true := by
      simp only [List.all_cons, Bool.and_eq_true] at hd
      exact hd.1
    have h1 : lit ['-'] (d :: (t ++ '.' :: fs)) = none :=
      lit_single_ne (ne_of_isDigit hdd (by decide)) _
    have h2' : digit1 (d :: (t ++ '.' :: fs)) = some (d :: t, '.' :: fs) := by
      simpa using h2
    simp [parse_number, h1, h2', h3, h4]

theorem parse_number_nofrac {neg : Bool} {ds : List Char}
    (hds : ds ≠ []) (hd : ds.all Char.isDigit = true) :
    parse_number ((if neg then ['-'] else []) ++ ds) =
      some ((if neg then (-1 : ℚ) else 1) * (digitsToNat ds : ℚ), []) := by
  have h2 : digit1 ds = some (ds, []) := by
    have := digit1_append hds hd (show stopsDigit ([] : List Char) = true from rfl)
    simpa using this
  have h3 : lit ['.'] ([] : List Char) = none := rfl
  cases neg with
  | true =>
    have h1 : lit ['-'] ('-' :: ds) = some ((), ds) := lit_append ['-'] ds
    simp [parse_number, h1, h2, h3]
  | false =>
    obtain ⟨d, t, rfl⟩ : ∃ d t, ds = d :: t := by
      cases ds with
      | nil => exact absurd rfl hds
      | cons d t => exact ⟨d, t, rfl⟩
    have hdd : d.isDigit = true := by
      simp only [List.all_cons, Bool.and_eq_true] at hd
      exact hd.1
    have h1 : lit ['-'] (d :: t) = none :=
      lit_single_ne (ne_of_isDigit hdd (by decide)) _
    simp [parse_number, h1, h2, h3]

/-- Claim C1: on every literal of the form optional minus sign, digits, and
an optional dot followed by digits, `parse_number` succeeds consuming the
whole literal, and its value is `sign * (integer + fraction)` where the
fraction is the fractional digit string read as an integer divided by
`10 ^ (number of fractional digits)`; in particular
`parse_number "123.456789" = 123.456789` and `parse_number "-0.5" = -0.5`. -/
theorem claim_C1 :
    (∀ (neg : Bool) (ds : List Char), ds ≠ [] → ds.all Char.isDigit = true →
      parse_number ((if neg then ['-'] else []) ++ ds) =
        some ((if neg then (-1 : ℚ) else 1) * (digitsToNat ds : ℚ), [])) ∧
    (∀ (neg : Bool) (ds fs : List Char), ds ≠ [] → fs ≠ [] →
      ds.all Char.isDigit = true → fs.all Char.isDigit = true →
      parse_number ((if neg then ['-'] else []) ++ ds ++ '.' :: fs) =
        some ((if neg then (-1 : ℚ) else 1) *
          ((digitsToNat ds : ℚ) + (digitsToNat fs : ℚ) / 10 ^ fs.length), [])) ∧
    parse_number ("123.456789".toList) = some ((123456789 : ℚ) / 1000000, []) ∧
    parse_number ("-0.5".toList) = some (-((1 : ℚ) / 2), []) := by
  refine ⟨?_, ?_, by decide, by decide⟩
  · intro neg ds h1 h2
    exact parse_number_nofrac h1 h2
  · intro neg ds fs h1 h2 h3 h4
    exact parse_number_frac h1 h2 h3 h4

/-- Witness for C1: a concrete instance of the general fractional case. -/
theorem claim_C1_witness :
    parse_number ((if true then ['-'] else []) ++ ['4', '2'] ++ '.' :: ['2', '5']) =
      some ((if true then (-1 : ℚ) else 1) *
        ((digitsToNat ['4', '2'] : ℚ) + (digitsToNat ['2', '5'] : ℚ) / 10 ^ (['2', '5'] : List Char).length), []) :=
  claim_C1.2.1 true ['4', '2'] ['2', '5'] (by decide) (by decide) (by decide) (by decide)

/-! ### Claim C4: string literals without escape processing -/

/-- Claim C4: for every body free of quote characters, the input quote,
body, quote parses to the body verbatim; no escape decoding happens, and the
body stops at the next quote even when that quote follows a backslash. -/
theorem claim_C4 :
    (∀ body : List Char, '"' ∉ body →
      parse_string ('"' :: body ++ ['"']) = some (body, [])) ∧
    parse_string (['"', 'a', '\\', '"', 'b', '"']) = some (['a', '\\'], ['b', '"']) := by
  refine ⟨?_, rfl⟩
  intro body hb
  have h1 : lit ['"'] ('"' :: body ++ ['"']) = some ((), body ++ ['"']) :=
    lit_append ['"'] (body ++ ['"'])
  have h2 : takeUntil '"' (body ++ ['"']) = some (body, ['"']) :=
    takeUntil_append hb
  have h3 : lit ['"'] ['"'] = some ((), []) := rfl
  simp only [parse_string, h1, h2, h3]

/-- Witness for C4: the general quote-free-body case at a concrete body. -/
theorem claim_C4_witness :
    parse_string ('"' :: ['h', 'i'] ++ ['"']) = some (['h', 'i'], []) :=
  claim_C4.1 ['h', 'i'] (by decide)

/-! ### Claim C5: literal lexemes (corrected: matching is not boundary-aware) -/

/-- Counterexample to C5 as stated: on the input `nulla` the literal parser
does consume `null` and leave the trailing `a`, and the entry point accepts
the input as `Null`. -/
theorem claim_C5_counterexample :
    parse_null ("nulla".toList) = some ((), ['a']) ∧
    parse_json ("nulla".toList) = some JsonValue.Null :=
  ⟨rfl, rfl⟩

/-- Claim C5 (amended): the literal parsers match the lexemes `null`,
`true`, `false` exactly and case-sensitively, consuming exactly the lexeme
and yielding the corresponding scalar — but matching is not boundary-aware:
a literal followed by more characters still succeeds, consuming only the
literal substring, as `nulla` shows. -/
theorem claim_C5 :
    (∀ r, parse_null ("null".toList ++ r) = some ((), r)) ∧
    (∀ s u r, parse_null s = some (u, r) → s = "null".toList ++ r) ∧
    (∀ r, parse_boolean ("true".toList ++ r) = some (true, r)) ∧
    (∀ r, parse_boolean ("false".toList ++ r) = some (false, r)) ∧
    (∀ s b r, parse_boolean s = some (b, r) →
      s = (if b then "true".toList else "false".toList) ++ r) ∧
    parse_null ("Null".toList) = none ∧
    parse_boolean ("True".toList) = none ∧
    parse_null ("nulla".toList) = some ((), ['a']) := by
  refine ⟨?_, ?_, ?_, ?_, ?_, rfl, rfl, rfl⟩
  · intro r
    exact lit_append ['n', 'u', 'l', 'l'] r
  · intro s u r h
    exact lit_some h
  · intro r
    have h1 : lit ['t', 'r', 'u', 'e'] ("true".toList ++ r) = some ((), r) :=
      lit_append ['t', 'r', 'u', 'e'] r
    simp only [parse_boolean, h1]
  · intro r
    have h1 : lit ['t', 'r', 'u', 'e'] ("false".toList ++ r) = none := rfl
    have h2 : lit ['f', 'a', 'l', 's', 'e'] ("false".toList ++ r) = some ((), r) :=
      lit_append ['f', 'a', 'l', 's', 'e'] r
    simp only [parse_boolean, h1, h2]
  · intro s b r h
    simp only [parse_boolean] at h
    cases ht : lit ['t', 'r', 'u', 'e'] s with
    | some p =>
      rw [ht] at h
      simp only [Option.some.injEq, Prod.mk.injEq] at h
      obtain ⟨hb, hr⟩ := h
      subst hb
      subst hr
      simpa using lit_some ht
    | none =>
      rw [ht] at h
      cases hf : lit ['f', 'a', 'l', 's', 'e'] s with
      | none => rw [hf] at h; cases h
      | some p =>
        rw [hf] at h
        simp only [Option.some.injEq, Prod.mk.injEq] at h
        obtain ⟨hb, hr⟩ := h
        subst hb
        subst hr
        simpa using lit_some hf

/-- Witness for C5 (amended): the inversion direction at a concrete input. -/
theorem claim_C5_witness :
    "nullx".toList = "null".toList ++ ['x'] :=
  claim_C5.2.1 ("nullx".toList) () ['x'] (by decide)

/-! ### Claim C2: scientific notation -/

/-- Claim C2: on every input of the form number, letter e, then an optionally
explicitly signed digit string, `parse_scientific_notation` succeeds
consuming the whole input and returns the number value times ten to the
signed exponent; in particular it maps `1.1e-30` to `1.1 * 10^(-30)` (the
exact rational `11 / 10^31`) and `1.1e+1` to `11`. -/
theorem claim_C2 :
    (∀ (m : List Char) (x : ℚ) (sgn es : List Char),
      parse_number (m ++ 'e' :: (sgn ++ es)) = some (x, 'e' :: (sgn ++ es)) →
      (sgn = [] ∨ sgn = ['+'] ∨ sgn = ['-']) →
      es ≠ [] → es.all Char.isDigit = true →
      parse_scientific_notation (m ++ 'e' :: (sgn ++ es)) =
        some (x * (10 : ℚ) ^
          (if sgn = ['-'] then -(digitsToNat es : ℤ) else (digitsToNat es : ℤ)), [])) ∧
    parse_scientific_notation ("1.1e-30".toList) = some ((11 : ℚ) / 10 ^ 31, []) ∧
    parse_scientific_notation ("1.1e+1".toList) = some ((11 : ℚ), []) := by
  refine ⟨?_, by decide, by decide⟩
  intro m x sgn es hnum hsgn hes hesd
  have hdig : digit1 es = some (es, []) := by
    have := digit1_append hes hesd (show stopsDigit ([] : List Char) = true from rfl)
    simpa using this
  have hlit : lit ['e'] ('e' :: (sgn ++ es)) = some ((), sgn ++ es) :=
    lit_append ['e'] (sgn ++ es)
  obtain ⟨e0, es', rfl⟩ : ∃ e0 es', es = e0 :: es' := by
    cases es with
    | nil => exact absurd rfl hes
    | cons e0 es' => exact ⟨e0, es', rfl⟩
  have he0 : e0.isDigit = true := by
    simp only [List.all_cons, Bool.and_eq_true] at hesd
    exact hesd.1
  have hint : parse_integer (sgn ++ e0 :: es') =
      some ((if sgn = ['-'] then -(digitsToNat (e0 :: es') : ℤ)
             else (digitsToNat (e0 :: es') : ℤ)), []) := by
    rcases hsgn with h | h | h
    · subst h
      have hnp : ¬(e0 = '+' ∨ e0 = '-') := by
        rintro (h | h)
        · exact (ne_of_isDigit he0 (by decide)) h.symm
        · exact (ne_of_isDigit he0 (by decide)) h.symm
      simp [parse_integer, hnp, hdig]
    · subst h
      simp [parse_integer, hdig]
    · subst h
      simp [parse_integer, hdig]
  rw [show parse_scientific_notation (m ++ 'e' :: (sgn ++ (e0 :: es'))) =
      (match parse_number (m ++ 'e' :: (sgn ++ (e0 :: es'))) with
      | none => none
      | some (x, s1) =>
        match lit ['e'] s1 with
        | none => none
        | some (_, s2) =>
          match parse_integer s2 with
          | none => none
          | some (z, s3) => some (x * powi10 z, s3)) from rfl]
  rw [hnum]
  simp only [hlit, hint, powi10_zpow]

/-- Witness for C2: the general case at the concrete input `2e-3`. -/
theorem claim_C2_witness :
    parse_scientific_notation (['2'] ++ 'e' :: (['-'] ++ ['3'])) =
      some ((2 : ℚ) * (10 : ℚ) ^
        (if (['-'] : List Char) = ['-'] then -(digitsToNat ['3'] : ℤ)
         else (digitsToNat ['3'] : ℤ)), []) :=
  claim_C2.1 ['2'] 2 ['-'] ['3'] (by decide) (Or.inr (Or.inr rfl)) (by decide) (by decide)

/-! ### Claim C9: malformed inputs fail as a whole -/

/-- Claim C9: the malformed inputs `nul`, `[1,2` (missing closing bracket)
and an object with a key but no value after the colon each make the entry
point fail; no partial value tree is returned. -/
theorem claim_C9 :
    parse_json ("nul".toList) = none ∧
    parse_json ("[1,2".toList) = none ∧
    parse_json (['{', '"', 'a', '"', ':', '}']) = none :=
  ⟨rfl, rfl, rfl⟩

/-! ### Claim C10: trailing input is silently ignored -/

/-- Claim C10: the entry point does not require the whole buffer to be
consumed: whenever `parse_value` (at the fuel `parse_json` supplies)
succeeds on a prefix, `parse_json` returns that value and silently discards
the trailing rest, as on `nulla` and on `1 2`. -/
theorem claim_C10 :
    (∀ s v r, parse_value (4 * s.length + 4) s = some (v, r) →
      parse_json s = some v) ∧
    parse_json ("nulla".toList) = some JsonValue.Null ∧
    parse_json ("1 2".toList) = some (JsonValue.Number 1) := by
  refine ⟨?_, rfl, rfl⟩
  intro s v r h
  simp [parse_json, h]

/-- Witness for C10: the general conjunct at the concrete input `1 2`. -/
theorem claim_C10_witness :
    parse_json ("1 2".toList) = some (JsonValue.Number 1) :=
  claim_C10.1 ("1 2".toList) (JsonValue.Number 1) (" 2".toList) (by rfl)

/-! ### Claim C3: the dispatch order of parse_value -/

/-- Claim C3: `parse_value` tries the alternatives in the fixed order null,
string, scientific number, number, boolean, array, object, from the same
start position (backtracking), and the first success wins; in particular
scientific notation is tried before the plain number rule, so `[1.1e-30]`
parses as a one-element array holding one number, while the plain number
rule alone would stop at the mantissa and leave the exponent suffix
unconsumed. -/
theorem claim_C3 :
    (∀ f s u r, parse_null s = some (u, r) →
      parse_value (f + 1) s = some (JsonValue.Null, r)) ∧
    (∀ f s b r, parse_null s = none → parse_string s = some (b, r) →
      parse_value (f + 1) s = some (JsonValue.String b, r)) ∧
    (∀ f s q r, parse_null s = none → parse_string s = none →
      parse_scientific_notation s = some (q, r) →
      parse_value (f + 1) s = some (JsonValue.Number q, r)) ∧
    (∀ f s q r, parse_null s = none → parse_string s = none →
      parse_scientific_notation s = none → parse_number s = some (q, r) →
      parse_value (f + 1) s = some (JsonValue.Number q, r)) ∧
    (∀ f s b r, parse_null s = none → parse_string s = none →
      parse_scientific_notation s = none → parse_number s = none →
      parse_boolean s = some (b, r) →
      parse_value (f + 1) s = some (JsonValue.Boolean b, r)) ∧
    (∀ f s vs r, parse_null s = none → parse_string s = none →
      parse_scientific_notation s = none → parse_number s = none →
      parse_boolean s = none → parse_array f s = some (vs, r) →
      parse_value (f + 1) s = some (JsonValue.Array vs, r)) ∧
    (∀ f s ps r, parse_null s = none → parse_string s = none →
      parse_scientific_notation s = none → parse_number s = none →
      parse_boolean s = none → parse_array f s = none →
      parse_object f s = some (ps, r) →
      parse_value (f + 1) s = some (JsonValue.Object ps, r)) ∧
    parse_json ("[1.1e-30]".toList) =
      some (JsonValue.Array [JsonValue.Number ((11 : ℚ) / 10 ^ 31)]) ∧
    parse_number ("1.1e-30".toList) = some ((11 : ℚ) / 10, "e-30".toList) := by
  refine ⟨?_, ?_, ?_, ?_, ?_, ?_, ?_, by rfl, by decide⟩
  · intro f s u r h
    cases u
    simp only [parse_value, h]
  · intro f s b r h0 h1
    simp only [parse_value, h0, h1]
  · intro f s q r h0 h1 h2
    simp only [parse_value, h0, h1, h2]
  · intro f s q r h0 h1 h2 h3
    simp only [parse_value, h0, h1, h2, h3]
  · intro f s b r h0 h1 h2 h3 h4
    simp only [parse_value, h0, h1, h2, h3, h4]
  · intro f s vs r h0 h1 h2 h3 h4 h5
    simp only [parse_value, h0, h1, h2, h3, h4, h5]
  · intro f s ps r h0 h1 h2 h3 h4 h5 h6
    simp only [parse_value, h0, h1, h2, h3, h4, h5, h6]

/-- Witness for C3: the scientific-before-number conjunct at the concrete
input `1e2` (both rules would succeed; the scientific one is taken). -/
theorem claim_C3_witness :
    parse_value 1 ("1e2".toList) = some (JsonValue.Number 100, []) :=
  claim_C3.2.2.1 0 ("1e2".toList) 100 [] (by rfl) (by rfl) (by decide)

/-! ### Claim C6: objects, string keys, last write wins -/

theorem lookup_insert_self (m : List (List Char × JsonValue)) (k : List Char)
    (v : JsonValue) : lookupKV (insertKV m k v) k = some v := by
  induction m with
  | nil => simp [insertKV, lookupKV]
  | cons p rest ih =>
    obtain ⟨k', v'⟩ := p
    by_cases h : k' = k
    · simp [insertKV, h, lookupKV]
    · simp [insertKV, h, lookupKV, ih]

theorem lookup_insert_ne {k' k : List Char} (h : k' ≠ k)
    (m : List (List Char × JsonValue)) (v' : JsonValue) :
    lookupKV (insertKV m k' v') k = lookupKV m k := by
  induction m with
  | nil => simp [insertKV, lookupKV, h]
  | cons p rest ih =>
    obtain ⟨k0, v0⟩ := p
    by_cases h0 : k0 = k'
    · simp [insertKV, h0, lookupKV, h]
    · simp only [insertKV, h0, if_false]
      by_cases h1 : k0 = k
      · simp [lookupKV, h1]
      · simp [lookupKV, h1, ih]

theorem lookup_foldl_keep :
    ∀ (ps : List (List Char × JsonValue)) (m : List (List Char × JsonValue))
      (k : List Char) (v : JsonValue),
      lookupKV m k = some v → (∀ p ∈ ps, p.1 ≠ k) →
      lookupKV (ps.foldl (fun m p => insertKV m p.1 p.2) m) k = some v := by
  intro ps
  induction ps with
  | nil => intro m k v hm _; simpa using hm
  | cons q qs ih =>
    intro m k v hm hps
    have hq : q.1 ≠ k := hps q (by simp)
    have hqs : ∀ p ∈ qs, p.1 ≠ k := fun p hp => hps p (by simp [hp])
    simp only [List.foldl_cons]
    exact ih _ k v (by rw [lookup_insert_ne hq]; exact hm) hqs

/-- Claim C6: `parse_object` maps the empty braces to the empty mapping and
a one-member object with key `key` and value `1` to the singleton mapping;
a member whose key is not a string lexeme is rejected; and when the same key
occurs in several pairs the resulting mapping keeps only the last pair's
value (shown both on a concrete duplicate-key object and in general for the
mapping the accumulator builds). -/
theorem claim_C6 :
    parse_object 60 (['{', '}']) = some ([], []) ∧
    parse_object 60 (['{', '"', 'k', 'e', 'y', '"', ':', ' ', '1', '}']) =
      some ([(['k', 'e', 'y'], JsonValue.Number 1)], []) ∧
    parse_object 60 (['{', '"', 'a', '"', ':', '1', ',', '"', 'a', '"', ':', '2', '}']) =
      some ([(['a'], JsonValue.Number 2)], []) ∧
    (∀ f, parse_object f (['{', '1', ':', '2', '}']) = none) ∧
    (∀ (ps₁ ps₂ : List (List Char × JsonValue)) (k : List Char) (v : JsonValue),
      (∀ p ∈ ps₂, p.1 ≠ k) →
      lookupKV (buildMap (ps₁ ++ (k, v) :: ps₂)) k = some v) := by
  refine ⟨rfl, rfl, rfl, ?_, ?_⟩
  · intro f
    cases f with
    | zero => rfl
    | succ f =>
      cases f with
      | zero => rfl
      | succ g =>
        have hkv : ∀ g0 : Nat, parse_kv g0 (['1', ':', '2', '}']) = none := by
          intro g0
          cases g0 with
          | zero => rfl
          | succ g0 =>
            have hs : parse_string (['1', ':', '2', '}']) = none := rfl
            simp [parse_kv, hs]
        have h1 : tok_ws '{' (['{', '1', ':', '2', '}']) =
            some ((), ['1', ':', '2', '}']) := rfl
        have h2 : objElems (g + 1) (['1', ':', '2', '}']) =
            some ([], ['1', ':', '2', '}']) := objElems_succ_nil (hkv g)
        have h3 : tok_ws '}' (['1', ':', '2', '}']) = none := rfl
        simp only [parse_object, h1, h2, h3]
  · intro ps₁ ps₂ k v hps
    unfold buildMap
    rw [List.foldl_append, List.foldl_cons]
    exact lookup_foldl_keep ps₂ _ k v (lookup_insert_self _ k v) hps

/-- Witness for C6: the general last-write-wins conjunct at a concrete
duplicate-key pair list. -/
theorem claim_C6_witness :
    lookupKV (buildMap ([(['a'], JsonValue.Number 1)] ++
      (['a'], JsonValue.Number 2) :: [])) ['a'] = some (JsonValue.Number 2) :=
  claim_C6.2.2.2.2 [(['a'], JsonValue.Number 1)] [] ['a'] (JsonValue.Number 2)
    (by simp)

/-! ### Claim C7: the array grammar -/

theorem tok_ws_open {c : Char} (hc : c.isWhitespace = false) {w rest : List Char}
    (hw : w.all Char.isWhitespace = true) (hr : stopsWs rest = true) :
    tok_ws c (c :: (w ++ rest)) = some ((), rest) := by
  have hms : multispace0 (c :: (w ++ rest)) = c :: (w ++ rest) :=
    multispace0_stops (by simp [stopsWs, hc])
  have hms2 : multispace0 (w ++ rest) = rest := multispace0_append hw hr
  simp [tok_ws, hms, lit, hms2]

theorem arrayTail_ok :
    ∀ (entries : List (List Char × List Char × List Char × JsonValue))
      (f : Nat) (wE aft : List Char),
      wE.all Char.isWhitespace = true →
      ArrTailOk f (wE ++ ']' :: aft) entries →
      ∀ g, f + entries.length ≤ g →
        arrayTail (g + 1) (arrTailStr entries ++ (wE ++ ']' :: aft)) =
          some (entries.map (fun q => q.2.2.2), wE ++ ']' :: aft) := by
  intro entries
  induction entries with
  | nil =>
    intro f wE aft hwE _ g _
    have hms : multispace0 (wE ++ ']' :: aft) = ']' :: aft :=
      multispace0_append hwE rfl
    have hc : tok_ws ',' (wE ++ ']' :: aft) = none := by
      simp [tok_ws, hms, lit_single_ne (show ',' ≠ ']' by decide)]
    simpa [arrTailStr] using arrayTail_succ_stop (f := g) hc
  | cons entry rest ih =>
    obtain ⟨wa, wb, e, v⟩ := entry
    intro f wE aft hwE hok g hg
    obtain ⟨hwa, hwb, hstop, hval, hrest⟩ := hok
    simp only [List.append_assoc] at hstop hval
    have hc : tok_ws ','
        (wa ++ (',' :: (wb ++ (e ++ (arrTailStr rest ++ (wE ++ ']' :: aft)))))) =
        some ((), e ++ (arrTailStr rest ++ (wE ++ ']' :: aft))) := by
      have h := tok_ws_append (c := ',') hwa hwb (by decide) hstop
      simpa only [List.append_assoc, List.cons_append] using h
    obtain ⟨g0, rfl⟩ : ∃ g0, g = g0 + 1 := by
      cases g with
      | zero => simp [List.length_cons] at hg
      | succ g0 => exact ⟨g0, rfl⟩
    have hval' : parse_value (g0 + 1)
        (e ++ (arrTailStr rest ++ (wE ++ ']' :: aft))) =
        some (v, arrTailStr rest ++ (wE ++ ']' :: aft)) :=
      parse_value_mono_le (by omega) hval
    have htl : arrayTail (g0 + 1) (arrTailStr rest ++ (wE ++ ']' :: aft)) =
        some (rest.map (fun q => q.2.2.2), wE ++ ']' :: aft) := by
      apply ih f wE aft hwE hrest g0
      simp only [List.length_cons] at hg
      omega
    have hfin := arrayTail_succ_cons (f := g0 + 1) hc hval' htl
    simpa [arrTailStr, List.append_assoc, List.cons_append] using hfin

/-- Claim C7: `parse_array` maps the empty brackets to the empty sequence
and the literal one, two, three to the ordered sequence of those numbers;
in general it accepts open bracket, whitespace, an optional element list
separated by whitespace-wrapped commas, whitespace, close bracket, parsing
every element by a recursive `parse_value` invocation and preserving source
order. -/
theorem claim_C7 :
    parse_array 60 ("[]".toList) = some ([], []) ∧
    parse_array 60 ("[1, 2, 3]".toList) =
      some ([JsonValue.Number 1, JsonValue.Number 2, JsonValue.Number 3], []) ∧
    (∀ w, w.all Char.isWhitespace = true →
      parse_array 2 ('[' :: (w ++ [']'])) = some ([], [])) ∧
    (∀ (f : Nat) (w0 wE e1 : List Char) (v1 : JsonValue)
      (entries : List (List Char × List Char × List Char × JsonValue)),
      w0.all Char.isWhitespace = true → wE.all Char.isWhitespace = true →
      stopsWs (e1 ++ (arrTailStr entries ++ (wE ++ [']']))) = true →
      parse_value f (e1 ++ (arrTailStr entries ++ (wE ++ [']']))) =
        some (v1, arrTailStr entries ++ (wE ++ [']'])) →
      ArrTailOk f (wE ++ [']']) entries →
      ∃ F, parse_array F
          ('[' :: (w0 ++ (e1 ++ (arrTailStr entries ++ (wE ++ [']']))))) =
        some (v1 :: entries.map (fun q => q.2.2.2), [])) := by
  refine ⟨rfl, rfl, ?_, ?_⟩
  · intro w hw
    have h1 : tok_ws '[' ('[' :: (w ++ [']'])) = some ((), [']']) :=
      tok_ws_open (c := '[') (by decide) hw (by decide)
    have h2 : arrayElems 1 [']'] = some ([], [']']) :=
      arrayElems_succ_nil (parse_value_fail_rbracket 0 [])
    have h3 : tok_ws ']' [']'] = some ((), []) := rfl
    exact parse_array_succ h1 h2 h3
  · intro f w0 wE e1 v1 entries hw0 hwE hstop hval hok
    refine ⟨f + entries.length + 3, ?_⟩
    have h1 : tok_ws '['
        ('[' :: (w0 ++ (e1 ++ (arrTailStr entries ++ (wE ++ [']']))))) =
        some ((), e1 ++ (arrTailStr entries ++ (wE ++ [']']))) :=
      tok_ws_open (c := '[') (by decide) hw0 hstop
    have hval' : parse_value (f + entries.length + 1)
        (e1 ++ (arrTailStr entries ++ (wE ++ [']']))) =
        some (v1, arrTailStr entries ++ (wE ++ [']'])) :=
      parse_value_mono_le (by omega) hval
    have htl : arrayTail (f + entries.length + 1)
        (arrTailStr entries ++ (wE ++ [']'])) =
        some (entries.map (fun q => q.2.2.2), wE ++ [']']) :=
      arrayTail_ok entries f wE [] hwE hok (f + entries.length) (by omega)
    have h2 : arrayElems (f + entries.length + 2)
        (e1 ++ (arrTailStr entries ++ (wE ++ [']']))) =
        some (v1 :: entries.map (fun q => q.2.2.2), wE ++ [']']) :=
      arrayElems_succ_cons hval' htl
    have h3 : tok_ws ']' (wE ++ [']']) = some ((), []) := by
      simpa using tok_ws_append hwE
        (show ([] : List Char).all Char.isWhitespace = true from rfl)
        (show (']' : Char).isWhitespace = false from rfl)
        (show stopsWs ([] : List Char) = true from rfl)
    exact parse_array_succ h1 h2 h3

/-- Witness for C7: the general nonempty-array conjunct at the concrete
one-element literal containing the number one. -/
theorem claim_C7_witness :
    ∃ F, parse_array F
        ('[' :: (([] : List Char) ++ (['1'] ++ (arrTailStr [] ++ (([] : List Char) ++ [']']))))) =
      some (JsonValue.Number 1 ::
        ([] : List (List Char × List Char × List Char × JsonValue)).map
          (fun q => q.2.2.2), []) :=
  claim_C7.2.2.2 1 [] [] ['1'] (JsonValue.Number 1) []
    (by decide) (by decide) (by decide) (by rfl) (by trivial)
